import Mathlib

/-!
# Disto analyzer: capture ring, snapshot publish, scope rendering, export

A shallow embedding of `src/main.cpp`.

* Sample values (`float` widened to `qreal`) are exact rationals.
* `std::vector<QPointF>` is `List QPointF`; indexing outside the vector is
  undefined behaviour in the source and is the fault `none` here.
* A JACK port buffer is `Option (List ℚ)`: `none` is the null pointer; reading
  through a null pointer or past the end of the buffer is the fault `none`.
* `std::mutex lock_ui_` is a boolean: `true` while the timer thread holds it.
* `size_t` arithmetic is taken modulo `2 ^ 64`, and a value stored into an
  `int` is reduced into the 32-bit signed range.
* The painter is the list of drawing commands it receives, in order.
* `qreal` arithmetic is IEEE 754 binary64: each operation delivers the exact
  rational result rounded to nearest, ties to even (`roundDouble`). The pixel
  coordinates `paintEvent` draws are computed that way; `xToCoord` and
  `yToCoord` are the same expressions without rounding.
-/

namespace DistoAnalyzer

/-! ## Data model -/

/-- A `QPointF`: a pair of `qreal` coordinates. `QPointF()` is `(0, 0)`. -/
structure QPointF where
  x : ℚ
  y : ℚ
deriving DecidableEq, Repr

instance : Inhabited QPointF := ⟨⟨0, 0⟩⟩

/-- The class `SignalView`: its only data member is `data_`. -/
structure SignalView where
  data_ : List QPointF := []
deriving DecidableEq, Repr

/-- The enumerator `mem_size = 64 * 1024` of `Application`. -/
def mem_size : Nat := 64 * 1024

/-- The data members of `Application` that the capture and display paths use.
`view_` is `none` for the null pointer. -/
structure Application where
  view_ : Option SignalView := none
  mem_index : Nat := 0
  mem_buf_ : List QPointF := []
  mem_ui_ : List QPointF := []
  lock_ui_ : Bool := false
deriving DecidableEq, Repr

/-- The outcomes of the JACK calls made by `Application::init`. -/
structure JackSetup where
  client_opened : Bool
  ports_registered : Bool
  activated : Bool
deriving DecidableEq, Repr

/-- The call `std::vector::resize(n)`: truncate, or pad with `QPointF()`. -/
def resize (v : List QPointF) (n : Nat) : List QPointF :=
  v.take n ++ List.replicate (n - v.length) ⟨0, 0⟩

/-- The method `Application::init`: both buffers are resized to `mem_size`
before anything can fail; the view is created only when JACK is up. -/
def init (jack : JackSetup) (app : Application) : Bool × Application :=
  let app := { app with mem_buf_ := resize app.mem_buf_ mem_size,
                        mem_ui_ := resize app.mem_ui_ mem_size }
  if !jack.client_opened then (false, app)
  else if !jack.ports_registered then (false, app)
  else if !jack.activated then (false, app)
  else (true, { app with view_ := some {} })

/-- One iteration of the frame loop of `Application::process`:
`mem_buf_[mem_index] = QPointF(ref[i], fx[i])`, then
`mem_index = (mem_index + 1) % mem_size` in `size_t` arithmetic. -/
def processFrame (ref fx : Option (List ℚ)) (i : Nat) (app : Application) :
    Option Application :=
  match ref.bind (fun r => r[i]?), fx.bind (fun f => f[i]?) with
  | some a, some b =>
    if app.mem_index < app.mem_buf_.length then
      some { app with mem_buf_ := app.mem_buf_.set app.mem_index ⟨a, b⟩,
                      mem_index := ((app.mem_index + 1) % 2 ^ 64) % mem_size }
    else none
  | _, _ => none

/-- The loop `for (size_t i = 0; i < nframes; ++i)` of `Application::process`,
entered at index `i` with `count` iterations left. -/
def processLoop (ref fx : Option (List ℚ)) : (count i : Nat) → Application → Option Application
  | 0, _, app => some app
  | count + 1, i, app =>
    match processFrame ref fx i app with
    | some app1 => processLoop ref fx count (i + 1) app1
    | none => none

/-- The call `std::copy(&mem_buf_[0], &mem_buf_[mem_size], &mem_ui_[0])`: the
first `mem_size` elements of the ring overwrite the first `mem_size` elements of
the snapshot; either vector being shorter is the fault `none`. -/
def copyToUi (app : Application) : Option Application :=
  if mem_size ≤ app.mem_buf_.length ∧ mem_size ≤ app.mem_ui_.length then
    some { app with mem_ui_ := app.mem_buf_.take mem_size ++ app.mem_ui_.drop mem_size }
  else none

/-- The callback `Application::process`. `ref` and `fx` are what
`jack_port_get_buffer` returned for the two ports. The result is the returned
status and the state after the call; `none` is undefined behaviour. -/
def process (nframes : Nat) (ref fx : Option (List ℚ)) (app : Application) :
    Option (Int × Application) :=
  match processLoop ref fx nframes 0 app with
  | none => none
  | some app1 =>
    -- std::unique_lock lock(app->lock_ui_, std::try_to_lock)
    let owns_lock := !app1.lock_ui_
    if owns_lock then
      match copyToUi app1 with
      | some app2 => some (0, app2)
      | none => none
    else some (0, app1)

/-- The method `SignalView::setData` (the repaint it requests is `paintEvent`). -/
def setData (view : SignalView) (data : List QPointF) : SignalView :=
  { view with data_ := data }

/-- The handler of the 20 ms timer: under `lock_ui_`, `view->setData(mem_ui_)`.
The handler runs once the lock is free and releases it on return. -/
def timeout (app : Application) : Application :=
  { app with view_ := app.view_.map (fun view => setData view app.mem_ui_) }

/-! ## Rendering -/

/-- The value an `int` takes when initialised from a wider integer (`size_t`,
`long`): reduction modulo `2 ^ 32` into the signed range. -/
def toInt32 (z : Int) : Int :=
  if z % 2 ^ 32 < 2 ^ 31 then z % 2 ^ 32 else z % 2 ^ 32 - 2 ^ 32

/-- The implicit conversion of a `qreal` argument to `int`: truncation toward zero. -/
def truncToInt (q : ℚ) : Int :=
  if 0 ≤ q then Rat.floor q else -Rat.floor (-q)

/-- The function `std::lround`: nearest integer, halfway cases away from zero. -/
def lround (q : ℚ) : Int :=
  if 0 ≤ q then Rat.floor (q + 1 / 2) else -Rat.floor (-q + 1 / 2)

/-- The expression of the lambda `xToCoord` of `SignalView::paintEvent`, read
in exact arithmetic. -/
def xToCoord (w : Int) (x : ℚ) : ℚ :=
  ((x * (1.0 / 1.5) + 1.0) * 0.5) * ((w - 1 : Int) : ℚ)

/-- The expression of the lambda `yToCoord` of `SignalView::paintEvent`, read
in exact arithmetic. -/
def yToCoord (h : Int) (y : ℚ) : ℚ :=
  (1.0 - ((y * (1.0 / 1.5) + 1.0) * 0.5)) * ((h - 1 : Int) : ℚ)

/-- The exponent of the unit in the last place of the binary64 format at `q`:
53 significant bits, the exponent held at `-1022` in the subnormal range. -/
def ulpExp (q : ℚ) : Int :=
  max (Int.log 2 |q|) (-1022) - 52

/-- The nearest integer, an exact half going to the even neighbour. -/
def roundHalfEven (q : ℚ) : Int :=
  if q - Rat.floor q < 1 / 2 then Rat.floor q
  else if 1 / 2 < q - Rat.floor q then Rat.floor q + 1
  else if Rat.floor q % 2 = 0 then Rat.floor q
  else Rat.floor q + 1

/-- The `double` (`qreal`) an arithmetic operation delivers for the exact
result `q`: IEEE 754 binary64 round-to-nearest, ties to even. Results beyond
the largest finite `double` are not cut off. -/
def roundDouble (q : ℚ) : ℚ :=
  roundHalfEven (q / 2 ^ ulpExp q) * 2 ^ ulpExp q

/-- The lambda `xToCoord` of `SignalView::paintEvent` as the code evaluates it:
the quotient `1.0 / 1.5`, the product, the sum, the product with `0.5` and the
product with `w - 1` are each rounded to `double`. -/
def xToCoordDouble (w : Int) (x : ℚ) : ℚ :=
  roundDouble (roundDouble (roundDouble (roundDouble (x * roundDouble (1.0 / 1.5)) + 1.0) * 0.5)
    * ((w - 1 : Int) : ℚ))

/-- The lambda `yToCoord` of `SignalView::paintEvent` as the code evaluates it,
every operation rounded to `double`. -/
def yToCoordDouble (h : Int) (y : ℚ) : ℚ :=
  roundDouble (roundDouble (1.0 -
      roundDouble (roundDouble (roundDouble (y * roundDouble (1.0 / 1.5)) + 1.0) * 0.5))
    * ((h - 1 : Int) : ℚ))

/-- The pen colours used by `paintEvent`. -/
inductive PenColor where
  | gray
  | black
deriving DecidableEq, Repr

/-- The calls `paintEvent` makes on its `QPainter`. `drawLine` and `drawPoint`
are the `int` overloads. -/
inductive PainterCall where
  | setPen (color : PenColor) (width : ℚ)
  | drawLine (x1 y1 x2 y2 : Int)
  | drawPoint (x y : Int)
deriving DecidableEq, Repr

/-- The braced list `{-1.0, -0.5, 0.0, 0.5, 1.0}` both grid loops run over. -/
def gridPositions : List ℚ := [-1.0, -0.5, 0.0, 0.5, 1.0]

/-- The body of the scatter loop: the point drawn for `data[i]`, with
`int x = std::lround(xToCoord(p.x()))` and `int y = std::lround(yToCoord(p.y()))`. -/
def plotPoint (w h : Int) (p : QPointF) : PainterCall :=
  PainterCall.drawPoint (toInt32 (lround (xToCoordDouble w p.x)))
    (toInt32 (lround (yToCoordDouble h p.y)))

/-- The method `SignalView::paintEvent` on a widget of width `w` and height `h`:
the painter calls it makes, in order. The scatter loop visits `data[0]` to
`data[size - 1]`. -/
def paintEvent (w h : Int) (view : SignalView) : List PainterCall :=
  let data := view.data_
  let size : Int := toInt32 (data.length : Int)
  if size < 1 then []
  else
    [PainterCall.setPen PenColor.gray 1.0]
    ++ gridPositions.map (fun x =>
        PainterCall.drawLine (truncToInt (xToCoordDouble w x))
          (truncToInt (yToCoordDouble h (-2)))
          (truncToInt (xToCoordDouble w x)) (truncToInt (yToCoordDouble h 2)))
    ++ gridPositions.map (fun y =>
        PainterCall.drawLine (truncToInt (xToCoordDouble w (-2)))
          (truncToInt (yToCoordDouble h y))
          (truncToInt (xToCoordDouble w 2)) (truncToInt (yToCoordDouble h y)))
    ++ [PainterCall.setPen PenColor.black 1.0]
    ++ (data.take size.toNat).map (plotPoint w h)

/-- Whether a painter call is a grid line. -/
def PainterCall.isLine : PainterCall → Bool
  | PainterCall.drawLine _ _ _ _ => true
  | _ => false

/-- Whether a painter call is a scatter point. -/
def PainterCall.isPoint : PainterCall → Bool
  | PainterCall.drawPoint _ _ => true
  | _ => false

/-! ## Export -/

/-- The decimal exponent of `a > 0`: the `e` with `10 ^ e ≤ a < 10 ^ (e + 1)`,
found by scaling `a` into `[1, 10)` in at most `fuel` steps. -/
def decimalExponent : Nat → ℚ → Int
  | 0, _ => 0
  | fuel + 1, a =>
    if 10 ≤ a then decimalExponent fuel (a / 10) + 1
    else if a < 1 then decimalExponent fuel (a * 10) - 1
    else 0

/-- Removal of the trailing zeros of a digit string. -/
def chopZeros (ds : List Char) : List Char :=
  (ds.reverse.dropWhile (fun c => c == '0')).reverse

/-- Fixed-point form of the six significant digits `ds` at decimal exponent
`X`, for `-4 ≤ X < 6`, trailing zeros of the fraction removed. -/
def decimalForm (ds : List Char) (X : Int) : List Char :=
  if 0 ≤ X then
    let fraction := chopZeros (ds.drop (X.toNat + 1))
    if fraction.isEmpty then ds.take (X.toNat + 1)
    else ds.take (X.toNat + 1) ++ '.' :: fraction
  else
    '0' :: '.' :: (List.replicate ((-X).toNat - 1) '0' ++ chopZeros ds)

/-- Exponent form of the six significant digits `ds` at decimal exponent `X`:
mantissa with trailing zeros removed, then `e`, a sign and at least two
exponent digits. -/
def exponentForm (ds : List Char) (X : Int) : List Char :=
  let fraction := chopZeros (ds.drop 1)
  let mantissa := if fraction.isEmpty then ds.take 1 else ds.take 1 ++ '.' :: fraction
  let digits := Nat.toDigits 10 X.natAbs
  mantissa ++ 'e' :: (if X < 0 then '-' else '+')
    :: (if digits.length < 2 then '0' :: digits else digits)

/-- Modelled from the Qt documentation: `QTextStream::operator<<(double)` is
library code outside this repository. The handler leaves the stream at its
defaults, for which Qt documents that a real number is written "using
SmartNotation, with up to 6 digits of precision", `SmartNotation` being
printf's `%g`: six significant digits (rounded to nearest, a half upward in
magnitude), fixed-point when the decimal exponent `X` satisfies `-4 ≤ X < 6`
and exponent form otherwise, trailing zeros and a bare decimal point removed.
The 400 scaling steps cover the exponent range of every finite `double`. -/
def smartNotation (v : ℚ) : String :=
  if v = 0 then "0"
  else
    let e := decimalExponent 400 |v|
    let m := (Rat.floor (|v| * 10 ^ (5 - e) + 1 / 2)).toNat
    let X := if m = 1000000 then e + 1 else e
    let ds := Nat.toDigits 10 (if m = 1000000 then 100000 else m)
    let body := if -4 ≤ X ∧ X < 6 then decimalForm ds X else exponentForm ds X
    String.mk (if v < 0 then '-' :: body else body)

/-- The loop `for (const QPointF &p : data) stream << p.x() << ' ' << p.y() << '\n'`
of the save handler, for a stream that writes a real number `v` as `fmt v`:
the text the stream has received at the end. -/
def writeRecords (fmt : ℚ → String) (data : List QPointF) : String :=
  data.foldl (fun stream p => stream ++ fmt p.x ++ " " ++ fmt p.y ++ "\n") ""

/-- The handler of `actionSave`. `filename` is what the file dialog returned and
`opened` whether `file.open(QFile::WriteOnly)` succeeded. The result is the text
written to the file, `none` when the handler returns without writing. -/
def actionSave (filename : String) (opened : Bool) (view : SignalView) : Option String :=
  let data := view.data_
  if filename.isEmpty then none
  else if !opened then none
  else some (writeRecords smartNotation data)

/-! ## Runs of the callback and the pairs they write -/

/-- The ring as a pure function, used to reason about the frame loop: writing
the pairs `ps` in order at cursor `idx` gives this cursor and this buffer. -/
def ringWrite (idx : Nat) (buf : List QPointF) : List QPointF → Nat × List QPointF
  | [] => (idx, buf)
  | p :: ps => ringWrite ((idx + 1) % mem_size) (buf.set idx p) ps

/-- The state invariant `init` establishes: the cursor is inside the ring and
both vectors have `mem_size` elements. -/
def Application.WellFormed (app : Application) : Prop :=
  app.mem_index < mem_size ∧ app.mem_buf_.length = mem_size ∧ app.mem_ui_.length = mem_size

instance (app : Application) : Decidable app.WellFormed :=
  inferInstanceAs (Decidable (_ ∧ _ ∧ _))

/-- The pairs `QPointF(ref[i], fx[i])` for `i` in `[0, nframes)`, in order. -/
def framePairs (nframes : Nat) (ref fx : List ℚ) : List QPointF :=
  List.zipWith QPointF.mk (ref.take nframes) (fx.take nframes)

/-- One invocation of the callback by the audio engine: the frame count, the
two port buffers, and whether the timer thread holds `lock_ui_` meanwhile. -/
structure Cycle where
  nframes : Nat
  ref : List ℚ
  fx : List ℚ
  locked : Bool
deriving DecidableEq, Repr

/-- The engine hands over two arrays of `nframes` samples. -/
def Cycle.Valid (c : Cycle) : Prop :=
  c.ref.length = c.nframes ∧ c.fx.length = c.nframes

instance (c : Cycle) : Decidable c.Valid :=
  inferInstanceAs (Decidable (_ ∧ _))

/-- The callback invoked once per cycle, in order; `none` as soon as one
invocation is undefined. -/
def runCycles : Application → List Cycle → Option Application
  | app, [] => some app
  | app, c :: cs =>
    match process c.nframes (some c.ref) (some c.fx) { app with lock_ui_ := c.locked } with
    | some (_, app1) => runCycles app1 cs
    | none => none

/-- Every pair the cycles hand to the ring, in write order: position `t` of
this list is the `t`-th pair written. -/
def written : List Cycle → List QPointF
  | [] => []
  | c :: cs => framePairs c.nframes c.ref c.fx ++ written cs

/-- A port buffer of `mem_size` samples, all equal to `v`. -/
@[irreducible] def constantBuffer (v : ℚ) : List ℚ := List.replicate mem_size v

/-- The state a successful `init` leaves from a default-constructed
`Application`. -/
def startState : Application := (init ⟨true, true, true⟩ {}).2

/-! ## The ring as a pure function of the pairs written -/

theorem mem_size_eq : mem_size = 65536 := rfl

theorem ringWrite_append (ps qs : List QPointF) (idx : Nat) (buf : List QPointF) :
    ringWrite idx buf (ps ++ qs)
      = ringWrite (ringWrite idx buf ps).1 (ringWrite idx buf ps).2 qs := by
  induction ps generalizing idx buf with
  | nil => rfl
  | cons p ps ih => simp [ringWrite, ih]

theorem ringWrite_length (ps : List QPointF) (idx : Nat) (buf : List QPointF) :
    (ringWrite idx buf ps).2.length = buf.length := by
  induction ps generalizing idx buf with
  | nil => rfl
  | cons p ps ih => simp [ringWrite, ih]

theorem ringWrite_index (ps : List QPointF) (idx : Nat) (buf : List QPointF) :
    (ringWrite idx buf ps).1 % mem_size = (idx + ps.length) % mem_size := by
  induction ps generalizing idx buf with
  | nil => rfl
  | cons p ps ih =>
    rw [ringWrite, ih]
    simp only [List.length_cons, mem_size_eq]
    omega

theorem ringWrite_index_lt (ps : List QPointF) (idx : Nat) (buf : List QPointF)
    (h : idx < mem_size) : (ringWrite idx buf ps).1 < mem_size := by
  induction ps generalizing idx buf with
  | nil => exact h
  | cons p ps ih =>
    simp only [ringWrite]
    exact ih _ _ (Nat.mod_lt _ (by decide))

theorem ringWrite_index_eq (ps : List QPointF) (idx : Nat) (buf : List QPointF)
    (h : idx < mem_size) : (ringWrite idx buf ps).1 = (idx + ps.length) % mem_size := by
  rw [← ringWrite_index, Nat.mod_eq_of_lt (ringWrite_index_lt ps idx buf h)]

/-- A slot no write lands on keeps its content. -/
theorem ringWrite_untouched (ps : List QPointF) (idx : Nat) (buf : List QPointF) (j : Nat)
    (hidx : idx < mem_size)
    (h : ∀ t, t < ps.length → (idx + t) % mem_size ≠ j) :
    (ringWrite idx buf ps).2[j]? = buf[j]? := by
  induction ps generalizing idx buf with
  | nil => rfl
  | cons p ps ih =>
    simp only [ringWrite]
    rw [ih _ _ (Nat.mod_lt _ (by decide))]
    · have h0 := h 0 (by simp)
      rw [mem_size_eq] at h0 hidx
      have hne : idx ≠ j := by omega
      simp [List.getElem?_set, hne]
    · intro t ht
      have h1 := h (t + 1) (by simpa using ht)
      rw [mem_size_eq] at h1 hidx ⊢
      omega

/-- The pair written at position `t` is found at slot `(idx + t) % mem_size` as
long as fewer than `mem_size` writes followed it. -/
theorem ringWrite_get (ps : List QPointF) (idx : Nat) (buf : List QPointF) (t : Nat)
    (hidx : idx < mem_size) (hlen : buf.length = mem_size)
    (ht : t < ps.length) (hrecent : ps.length ≤ t + mem_size) :
    (ringWrite idx buf ps).2[(idx + t) % mem_size]? = ps[t]? := by
  induction ps generalizing idx buf t with
  | nil => simp at ht
  | cons p ps ih =>
    simp only [ringWrite]
    cases t with
    | zero =>
      rw [ringWrite_untouched]
      · simp [Nat.mod_eq_of_lt hidx, List.getElem?_set, hlen, hidx]
      · exact Nat.mod_lt _ (by decide)
      · intro t ht2
        simp only [List.length_cons] at hrecent
        rw [mem_size_eq] at hidx hrecent ⊢
        omega
    | succ t =>
      simp only [List.length_cons] at ht hrecent
      have := ih ((idx + 1) % mem_size) (buf.set idx p) t (Nat.mod_lt _ (by decide))
        (by simpa using hlen) (by omega) (by omega)
      simp only [List.getElem?_cons_succ]
      rw [← this]
      congr 1
      rw [mem_size_eq]
      omega

/-! ## The frame loop and the callback in terms of `ringWrite` -/

theorem framePairs_length (n : Nat) (r f : List ℚ) (hr : n ≤ r.length) (hf : n ≤ f.length) :
    (framePairs n r f).length = n := by
  simp [framePairs, List.length_zipWith, List.length_take, hr, hf]

theorem framePairs_getElem? (n : Nat) (r f : List ℚ) (i : Nat) (hi : i < n)
    (hr : n ≤ r.length) (hf : n ≤ f.length) :
    (framePairs n r f)[i]? = some ⟨r[i], f[i]⟩ := by
  have h1 : i < r.length := by omega
  have h2 : i < f.length := by omega
  simp [framePairs, List.getElem?_zipWith, List.getElem?_take, hi, List.getElem?_eq_getElem, h1, h2]

theorem processLoop_eq (r f : List ℚ) (count i : Nat) (app : Application)
    (hr : i + count ≤ r.length) (hf : i + count ≤ f.length)
    (hidx : app.mem_index < mem_size) (hlen : app.mem_buf_.length = mem_size) :
    processLoop (some r) (some f) count i app
      = some { app with
          mem_index := (ringWrite app.mem_index app.mem_buf_
            (List.zipWith QPointF.mk ((r.drop i).take count) ((f.drop i).take count))).1,
          mem_buf_ := (ringWrite app.mem_index app.mem_buf_
            (List.zipWith QPointF.mk ((r.drop i).take count) ((f.drop i).take count))).2 } := by
  induction count generalizing i app with
  | zero => simp [processLoop, ringWrite]
  | succ count ih =>
    have h1 : i < r.length := by omega
    have h2 : i < f.length := by omega
    have hw : ((app.mem_index + 1) % 2 ^ 64) % mem_size = (app.mem_index + 1) % mem_size := by
      rw [mem_size_eq] at hidx ⊢
      omega
    rw [processLoop]
    simp only [processFrame, Option.some_bind, List.getElem?_eq_getElem h1,
      List.getElem?_eq_getElem h2, hlen, hidx, if_true, hw]
    rw [ih (i + 1) _ (by omega) (by omega) (Nat.mod_lt _ (by decide)) (by simpa using hlen)]
    rw [List.drop_eq_getElem_cons h1, List.drop_eq_getElem_cons h2]
    simp [ringWrite]

theorem processLoop_valid (n : Nat) (r f : List ℚ) (app : Application)
    (hwf : app.WellFormed) (hr : n ≤ r.length) (hf : n ≤ f.length) :
    processLoop (some r) (some f) n 0 app
      = some { app with
          mem_index := (app.mem_index + n) % mem_size,
          mem_buf_ := (ringWrite app.mem_index app.mem_buf_ (framePairs n r f)).2 } := by
  rw [processLoop_eq r f n 0 app (by omega) (by omega) hwf.1 hwf.2.1]
  simp only [List.drop_zero]
  rw [ringWrite_index_eq _ _ _ hwf.1]
  simp [framePairs, List.length_zipWith, List.length_take, hr, hf]

theorem process_valid (n : Nat) (r f : List ℚ) (app : Application)
    (hwf : app.WellFormed) (hr : n ≤ r.length) (hf : n ≤ f.length) :
    process n (some r) (some f) app
      = some (0, { app with
          mem_index := (app.mem_index + n) % mem_size,
          mem_buf_ := (ringWrite app.mem_index app.mem_buf_ (framePairs n r f)).2,
          mem_ui_ := if app.lock_ui_ then app.mem_ui_
            else (ringWrite app.mem_index app.mem_buf_ (framePairs n r f)).2 }) := by
  obtain ⟨_, hb, hu⟩ := hwf
  rw [process, processLoop_valid n r f app ⟨‹_›, hb, hu⟩ hr hf]
  cases hl : app.lock_ui_
  · have h1 : List.take mem_size (ringWrite app.mem_index app.mem_buf_ (framePairs n r f)).2
        = (ringWrite app.mem_index app.mem_buf_ (framePairs n r f)).2 :=
      List.take_of_length_le (by simp [ringWrite_length, hb])
    have h2 : List.drop mem_size app.mem_ui_ = [] := List.drop_eq_nil_of_le (by omega)
    simp [copyToUi, ringWrite_length, hb, hu, hl, h1, h2]
  · simp [hl]

theorem process_wellFormed (n : Nat) (r f : List ℚ) (app : Application)
    (hwf : app.WellFormed) :
    ({ app with
          mem_index := (app.mem_index + n) % mem_size,
          mem_buf_ := (ringWrite app.mem_index app.mem_buf_ (framePairs n r f)).2,
          mem_ui_ := if app.lock_ui_ then app.mem_ui_
            else (ringWrite app.mem_index app.mem_buf_ (framePairs n r f)).2 }
      : Application).WellFormed := by
  obtain ⟨_, hb, hu⟩ := hwf
  refine ⟨Nat.mod_lt _ (by decide), by simp [ringWrite_length, hb], ?_⟩
  cases app.lock_ui_ <;> simp [ringWrite_length, hb, hu]

theorem init_state (jack : JackSetup) :
    (init jack {}).2.mem_index = 0
      ∧ (init jack {}).2.mem_buf_ = List.replicate mem_size ⟨0, 0⟩
      ∧ (init jack {}).2.mem_ui_ = List.replicate mem_size ⟨0, 0⟩ := by
  unfold init
  split_ifs <;> simp [resize]

theorem init_wellFormed (jack : JackSetup) : (init jack {}).2.WellFormed := by
  obtain ⟨h1, h2, h3⟩ := init_state jack
  refine ⟨?_, ?_, ?_⟩
  · rw [h1]; decide
  · rw [h2, List.length_replicate]
  · rw [h3, List.length_replicate]

theorem runCycles_eq (cycles : List Cycle) (app : Application) (hwf : app.WellFormed)
    (hv : ∀ c ∈ cycles, c.Valid) :
    ∃ s, runCycles app cycles = some s ∧ s.WellFormed
      ∧ s.mem_index = (ringWrite app.mem_index app.mem_buf_ (written cycles)).1
      ∧ s.mem_buf_ = (ringWrite app.mem_index app.mem_buf_ (written cycles)).2 := by
  induction cycles generalizing app with
  | nil => exact ⟨app, rfl, hwf, rfl, rfl⟩
  | cons c cs ih =>
    have hc : c.Valid := hv c (by simp)
    have hwf1 : ({ app with lock_ui_ := c.locked } : Application).WellFormed := hwf
    have hp := process_valid c.nframes c.ref c.fx _ hwf1 (le_of_eq hc.1.symm) (le_of_eq hc.2.symm)
    have hwf2 := process_wellFormed c.nframes c.ref c.fx _ hwf1
    obtain ⟨s, hs, hswf, hsi, hsb⟩ := ih _ hwf2 (fun c1 h1 => hv c1 (by simp [h1]))
    refine ⟨s, ?_, hswf, ?_, ?_⟩
    · rw [runCycles, hp]
      exact hs
    · rw [hsi, written, ringWrite_append]
      simp only
      rw [ringWrite_index_eq _ _ _ hwf.1,
        framePairs_length _ _ _ (le_of_eq hc.1.symm) (le_of_eq hc.2.symm)]
    · rw [hsb, written, ringWrite_append]
      simp only
      rw [ringWrite_index_eq _ _ _ hwf.1,
        framePairs_length _ _ _ (le_of_eq hc.1.symm) (le_of_eq hc.2.symm)]

/-- Once `mem_size` or more pairs were written, the ring is the last `mem_size`
of them, rotated so that position `t` sits at slot `t % mem_size`. -/
theorem ringWrite_full (ps : List QPointF) (buf : List QPointF)
    (hlen : buf.length = mem_size) (hk : mem_size ≤ ps.length) :
    (ringWrite 0 buf ps).2
      = (ps.drop (ps.length - mem_size)).rotate (mem_size - ps.length % mem_size) := by
  have hL : (ps.drop (ps.length - mem_size)).length = mem_size := by
    rw [List.length_drop]; omega
  apply List.ext_getElem?
  intro j
  by_cases hj : j < mem_size
  · rw [List.getElem?_rotate (by omega), hL, List.getElem?_drop]
    have hpos : 0 < mem_size := by decide
    have := ringWrite_get ps 0 buf
      (ps.length - mem_size + (j + (mem_size - ps.length % mem_size)) % mem_size)
      hpos hlen
      (by have := Nat.mod_lt (j + (mem_size - ps.length % mem_size)) hpos; omega)
      (by omega)
    have hslot : (0 + (ps.length - mem_size
        + (j + (mem_size - ps.length % mem_size)) % mem_size)) % mem_size = j := by
      rw [mem_size_eq] at hj hk ⊢
      omega
    rw [hslot] at this
    exact this
  · rw [List.getElem?_eq_none (by simp [ringWrite_length, hlen]; omega),
      List.getElem?_eq_none (by rw [List.length_rotate, hL]; omega)]

theorem runCycles_append (cs ds : List Cycle) (app : Application) :
    runCycles app (cs ++ ds) = (runCycles app cs).bind (fun s => runCycles s ds) := by
  induction cs generalizing app with
  | nil => rfl
  | cons c cs ih =>
    simp only [List.cons_append, runCycles]
    cases process c.nframes (some c.ref) (some c.fx) { app with lock_ui_ := c.locked } with
    | none => rfl
    | some res => exact ih res.2

/-! ## The claims on the capture ring -/

/-- C1: from the state `init` leaves, after any sequence of cycles that writes
`k` pairs in total, the ring holds: when `k ≤ mem_size`, the `j`-th pair written
in slot `j` for `j < k` and `(0, 0)` in every slot from `k` on; when
`k > mem_size`, the pair written at position `t` in slot `t % mem_size` for each
of the last `mem_size` positions, the ring being a rearrangement of exactly
those last `mem_size` pairs. -/
theorem ring_holds_most_recent_writes (jack : JackSetup) (cycles : List Cycle)
    (hv : ∀ c ∈ cycles, c.Valid) :
    ∃ s, runCycles (init jack {}).2 cycles = some s ∧
      ((written cycles).length ≤ mem_size →
        (∀ j, j < (written cycles).length → s.mem_buf_[j]? = (written cycles)[j]?) ∧
        (∀ j, (written cycles).length ≤ j → j < mem_size →
          s.mem_buf_[j]? = some ⟨0, 0⟩)) ∧
      (mem_size < (written cycles).length →
        s.mem_buf_.length = mem_size ∧
        (∀ t, (written cycles).length - mem_size ≤ t → t < (written cycles).length →
          s.mem_buf_[t % mem_size]? = (written cycles)[t]?) ∧
        List.Perm s.mem_buf_
          ((written cycles).drop ((written cycles).length - mem_size))) := by
  obtain ⟨h0i, h0b, _⟩ := init_state jack
  obtain ⟨s, hs, hswf, _, hsb⟩ := runCycles_eq cycles _ (init_wellFormed jack) hv
  rw [h0i, h0b] at hsb
  have hpos : 0 < mem_size := by decide
  have hrep : (List.replicate mem_size (⟨0, 0⟩ : QPointF)).length = mem_size :=
    List.length_replicate _ _
  refine ⟨s, hs, ?_, ?_⟩
  · intro hk
    constructor
    · intro j hj
      have := ringWrite_get (written cycles) 0 _ j hpos hrep hj (by omega)
      rw [Nat.zero_add, Nat.mod_eq_of_lt (by omega)] at this
      rw [hsb, this]
    · intro j hkj hj
      rw [hsb, ringWrite_untouched _ _ _ _ hpos]
      · simp [List.getElem?_replicate, hj]
      · intro t ht
        rw [Nat.zero_add, Nat.mod_eq_of_lt (by omega)]
        omega
  · intro hk
    refine ⟨hswf.2.1, ?_, ?_⟩
    · intro t htl htu
      have := ringWrite_get (written cycles) 0 _ t hpos hrep htu (by omega)
      rw [Nat.zero_add] at this
      rw [hsb, this]
    · rw [hsb, ringWrite_full _ _ hrep (le_of_lt hk)]
      exact List.rotate_perm _ _

/-- C9: in every state reached from `init` through any sequence of cycles the
cursor is below `mem_size` and both buffers have `mem_size` elements; from such
a state every write of a further cycle lands inside the ring (no step of the
frame loop is undefined), and the cycle leaves the cursor at
`(c + nframes) % mem_size`. -/
theorem cursor_stays_in_ring (jack : JackSetup) (cycles : List Cycle)
    (hv : ∀ c ∈ cycles, c.Valid) :
    ∃ s, runCycles (init jack {}).2 cycles = some s ∧
      s.mem_index < mem_size ∧ s.mem_buf_.length = mem_size ∧
      s.mem_ui_.length = mem_size ∧
      ∀ c : Cycle, c.Valid →
        (∀ i, i ≤ c.nframes → ∃ si,
          processLoop (some c.ref) (some c.fx) i 0 { s with lock_ui_ := c.locked } = some si
            ∧ si.mem_index < si.mem_buf_.length) ∧
        ∃ s1, process c.nframes (some c.ref) (some c.fx) { s with lock_ui_ := c.locked }
            = some (0, s1)
          ∧ s1.mem_index = (s.mem_index + c.nframes) % mem_size := by
  obtain ⟨s, hs, hswf, _, _⟩ := runCycles_eq cycles _ (init_wellFormed jack) hv
  refine ⟨s, hs, hswf.1, hswf.2.1, hswf.2.2, ?_⟩
  intro c hc
  have hwf1 : ({ s with lock_ui_ := c.locked } : Application).WellFormed := hswf
  constructor
  · intro i hi
    refine ⟨_, processLoop_valid i c.ref c.fx _ hwf1 (by rw [hc.1]; exact hi)
      (by rw [hc.2]; exact hi), ?_⟩
    simp only [ringWrite_length]
    rw [hswf.2.1]
    exact Nat.mod_lt _ (by decide)
  · exact ⟨_, process_valid c.nframes c.ref c.fx _ hwf1 (le_of_eq hc.1.symm)
      (le_of_eq hc.2.symm), rfl⟩

/-- C2: when the lock is free at the `try_lock`, the call returns `0` and the
snapshot `mem_ui_` afterwards equals, slot by slot in raw index order, the ring
`mem_buf_` as the frame loop of that cycle left it. -/
theorem publish_copies_ring (nframes : Nat) (ref fx : List ℚ) (app : Application)
    (hwf : app.WellFormed) (href : ref.length = nframes) (hfx : fx.length = nframes)
    (hlock : app.lock_ui_ = false) :
    ∃ ring app1, processLoop (some ref) (some fx) nframes 0 app = some ring ∧
      process nframes (some ref) (some fx) app = some (0, app1) ∧
      app1.mem_buf_ = ring.mem_buf_ ∧ app1.mem_index = ring.mem_index ∧
      app1.mem_ui_.length = mem_size ∧
      ∀ i, i < mem_size → app1.mem_ui_[i]? = app1.mem_buf_[i]? := by
  refine ⟨_, _, processLoop_valid nframes ref fx app hwf (le_of_eq href.symm)
    (le_of_eq hfx.symm), process_valid nframes ref fx app hwf (le_of_eq href.symm)
    (le_of_eq hfx.symm), rfl, rfl, ?_, ?_⟩
  · simp [hlock, ringWrite_length, hwf.2.1]
  · intro i _
    simp [hlock]

/-- C3: when the lock is held at the `try_lock`, the call returns `0`, the
snapshot `mem_ui_` is what it was before the call, and the state returned is
exactly the state the frame loop left: the publish step changes neither the
ring nor the cursor. -/
theorem held_lock_skips_copy (nframes : Nat) (ref fx : List ℚ) (app : Application)
    (hwf : app.WellFormed) (href : ref.length = nframes) (hfx : fx.length = nframes)
    (hlock : app.lock_ui_ = true) :
    ∃ ring, processLoop (some ref) (some fx) nframes 0 app = some ring ∧
      process nframes (some ref) (some fx) app = some (0, ring) ∧
      ring.mem_ui_ = app.mem_ui_ := by
  refine ⟨_, processLoop_valid nframes ref fx app hwf (le_of_eq href.symm)
    (le_of_eq hfx.symm), ?_, rfl⟩
  rw [process_valid nframes ref fx app hwf (le_of_eq href.symm) (le_of_eq hfx.symm)]
  simp [hlock]

/-- C7: a cycle of `nframes ≤ mem_size` frames entered at cursor `c` whose
publish succeeds leaves `(ref[i], fx[i])` in snapshot slot `(c + i) % mem_size`
for every `i < nframes`. -/
theorem publish_shows_cycle (nframes : Nat) (ref fx : List ℚ) (app : Application)
    (hwf : app.WellFormed) (href : ref.length = nframes) (hfx : fx.length = nframes)
    (hn : nframes ≤ mem_size) (hlock : app.lock_ui_ = false) :
    ∃ app1, process nframes (some ref) (some fx) app = some (0, app1) ∧
      ∀ (i : Nat) (hi : i < nframes),
        app1.mem_ui_[(app.mem_index + i) % mem_size]? = some ⟨ref[i], fx[i]⟩ := by
  refine ⟨_, process_valid nframes ref fx app hwf (le_of_eq href.symm)
    (le_of_eq hfx.symm), ?_⟩
  intro i hi
  have hlen := framePairs_length nframes ref fx (le_of_eq href.symm) (le_of_eq hfx.symm)
  simp only [hlock, Bool.false_eq_true, if_false]
  rw [ringWrite_get _ _ _ i hwf.1 hwf.2.1 (by omega) (by omega)]
  exact framePairs_getElem? nframes ref fx i hi (le_of_eq href.symm) (le_of_eq hfx.symm)

/-- C6, as the code has it: when the engine reports zero frames, whatever the
two buffer pointers are (null included), the call returns `0`, writes no pair,
leaves `mem_buf_` and `mem_index` unchanged, and changes at most `mem_ui_`, which
becomes a copy of the unchanged ring when the lock is free. -/
theorem zero_frames_is_noop (ref fx : Option (List ℚ)) (app : Application)
    (hwf : app.WellFormed) :
    process 0 ref fx app
      = some (0, { app with
          mem_ui_ := if app.lock_ui_ then app.mem_ui_ else app.mem_buf_ }) := by
  obtain ⟨view, idx, buf, ui, lock⟩ := app
  obtain ⟨_, hb, hu⟩ := hwf
  simp only at hb hu
  have h1 : List.take mem_size buf = buf := List.take_of_length_le (by omega)
  have h2 : List.drop mem_size ui = [] := List.drop_eq_nil_of_le (by omega)
  cases lock <;> simp [process, processLoop, copyToUi, hb, hu, h1, h2]

/-- C6 fails as stated: with one frame and a null reference buffer the frame
loop reads through the null pointer, so the call has no defined result. -/
theorem null_buffer_with_frames_faults :
    process 1 none (some [0]) startState = none := by
  simp [process, processLoop, processFrame]

theorem startState_wellFormed : startState.WellFormed := init_wellFormed _

theorem constantBuffer_length (v : ℚ) : (constantBuffer v).length = mem_size := by
  unfold constantBuffer
  exact List.length_replicate _ _

theorem constantBuffer_getElem? (v : ℚ) (i : Nat) (hi : i < mem_size) :
    (constantBuffer v)[i]? = some v := by
  unfold constantBuffer
  rw [List.getElem?_replicate, if_pos hi]

theorem framePairs_getElem?_some (n : Nat) (r f : List ℚ) (i : Nat) (a b : ℚ) (hi : i < n)
    (ha : r[i]? = some a) (hb : f[i]? = some b) :
    (framePairs n r f)[i]? = some ⟨a, b⟩ := by
  simp [framePairs, List.getElem?_zipWith, List.getElem?_take, hi, ha, hb]

/-- What the slot rule says after a cycle of `mem_size` frames followed by a
cycle of one frame `(x, y)`: the last pair has wrapped round to slot `0`, and
slot `1` still holds the second pair of the first cycle. -/
theorem wrapped_slots (s : Application) (r f : List ℚ) (a b x y : ℚ)
    (hr : r.length = mem_size) (hf : f.length = mem_size)
    (ha : r[1]? = some a) (hb : f[1]? = some b)
    (hslot : ∀ t,
      (written [⟨mem_size, r, f, false⟩, ⟨1, [x], [y], true⟩]).length - mem_size ≤ t →
      t < (written [⟨mem_size, r, f, false⟩, ⟨1, [x], [y], true⟩]).length →
      s.mem_buf_[t % mem_size]?
        = (written [⟨mem_size, r, f, false⟩, ⟨1, [x], [y], true⟩])[t]?) :
    s.mem_buf_[0]? = some ⟨x, y⟩ ∧ s.mem_buf_[1]? = some ⟨a, b⟩ := by
  have hpos : 1 < mem_size := by decide
  have hA : (framePairs mem_size r f).length = mem_size :=
    framePairs_length _ _ _ (le_of_eq hr.symm) (le_of_eq hf.symm)
  have hB : framePairs 1 [x] [y] = [⟨x, y⟩] := rfl
  have hw : written [⟨mem_size, r, f, false⟩, ⟨1, [x], [y], true⟩]
      = framePairs mem_size r f ++ [⟨x, y⟩] := by
    simp [written, hB]
  rw [hw] at hslot
  simp only [List.length_append, hA, List.length_singleton] at hslot
  constructor
  · have h := hslot mem_size (by omega) (by omega)
    rw [Nat.mod_self] at h
    rw [h, List.getElem?_append_right (by rw [hA]), hA, Nat.sub_self]
    rfl
  · have h := hslot 1 (by omega) (by omega)
    rw [Nat.mod_eq_of_lt hpos] at h
    rw [h, List.getElem?_append_left (by rw [hA]; exact hpos)]
    exact framePairs_getElem?_some mem_size _ _ 1 a b hpos ha hb

theorem wrapped_length (r f : List ℚ) (x y : ℚ)
    (hr : r.length = mem_size) (hf : f.length = mem_size) :
    mem_size < (written [⟨mem_size, r, f, false⟩, ⟨1, [x], [y], true⟩]).length := by
  have hA : (framePairs mem_size r f).length = mem_size :=
    framePairs_length _ _ _ (le_of_eq hr.symm) (le_of_eq hf.symm)
  have hB : framePairs 1 [x] [y] = [⟨x, y⟩] := rfl
  simp [written, hA, hB]

theorem ring_holds_most_recent_writes_witness :
    Cycle.Valid ⟨2, [1, 2], [3, 4], false⟩ ∧ Cycle.Valid ⟨1, [5], [6], true⟩ ∧
    (∃ s, runCycles startState [⟨2, [1, 2], [3, 4], false⟩, ⟨1, [5], [6], true⟩] = some s ∧
      s.mem_buf_[0]? = some ⟨1, 3⟩ ∧ s.mem_buf_[1]? = some ⟨2, 4⟩ ∧
      s.mem_buf_[2]? = some ⟨5, 6⟩ ∧ s.mem_buf_[3]? = some ⟨0, 0⟩) ∧
    (∃ s, runCycles startState
        [⟨mem_size, constantBuffer 1, constantBuffer 2, false⟩, ⟨1, [7], [8], true⟩] = some s ∧
      s.mem_buf_[0]? = some ⟨7, 8⟩ ∧ s.mem_buf_[1]? = some ⟨1, 2⟩) := by
  refine ⟨by decide, by decide, ?_, ?_⟩
  · obtain ⟨s, hs, hle, _⟩ := ring_holds_most_recent_writes ⟨true, true, true⟩
      [⟨2, [1, 2], [3, 4], false⟩, ⟨1, [5], [6], true⟩] (by decide)
    have hlen : (written [⟨2, [1, 2], [3, 4], false⟩, ⟨1, [5], [6], true⟩]).length = 3 := rfl
    obtain ⟨hw, hz⟩ := hle (by rw [hlen]; decide)
    refine ⟨s, hs, ?_, ?_, ?_, ?_⟩
    · rw [hw 0 (by rw [hlen]; decide)]; simp [written, framePairs]
    · rw [hw 1 (by rw [hlen]; decide)]; simp [written, framePairs]
    · rw [hw 2 (by rw [hlen]; decide)]; simp [written, framePairs]
    · exact hz 3 (by rw [hlen]) (by decide)
  · obtain ⟨s, hs, _, hgt⟩ := ring_holds_most_recent_writes ⟨true, true, true⟩
      [⟨mem_size, constantBuffer 1, constantBuffer 2, false⟩, ⟨1, [7], [8], true⟩]
      (by simp [Cycle.Valid, constantBuffer_length])
    exact ⟨s, hs, wrapped_slots s _ _ 1 2 7 8 (constantBuffer_length 1)
      (constantBuffer_length 2) (constantBuffer_getElem? 1 1 (by decide))
      (constantBuffer_getElem? 2 1 (by decide))
      (hgt (wrapped_length _ _ 7 8 (constantBuffer_length 1) (constantBuffer_length 2))).2.1⟩

theorem cursor_stays_in_ring_witness :
    Cycle.Valid ⟨2, [1, 2], [3, 4], false⟩ ∧ Cycle.Valid ⟨3, [5, 6, 7], [8, 9, 10], true⟩ ∧
    ∃ s s1, runCycles startState [⟨2, [1, 2], [3, 4], false⟩] = some s ∧
      s.mem_index < mem_size ∧ s.mem_buf_.length = mem_size ∧
      process 3 (some [5, 6, 7]) (some [8, 9, 10]) { s with lock_ui_ := true } = some (0, s1) ∧
      s1.mem_index = (s.mem_index + 3) % mem_size := by
  refine ⟨by decide, by decide, ?_⟩
  obtain ⟨s, hs, h1, h2, _, h4⟩ := cursor_stays_in_ring ⟨true, true, true⟩
    [⟨2, [1, 2], [3, 4], false⟩] (by decide)
  obtain ⟨_, s1, hp, hi⟩ := h4 ⟨3, [5, 6, 7], [8, 9, 10], true⟩ (by decide)
  exact ⟨s, s1, hs, h1, h2, hp, hi⟩

theorem publish_copies_ring_witness :
    startState.WellFormed ∧ startState.lock_ui_ = false ∧
    ∃ app1, process 2 (some [1, 2]) (some [3, 4]) startState = some (0, app1) ∧
      app1.mem_ui_.length = mem_size ∧ app1.mem_ui_[0]? = app1.mem_buf_[0]? ∧
      app1.mem_ui_[65535]? = app1.mem_buf_[65535]? := by
  refine ⟨startState_wellFormed, rfl, ?_⟩
  obtain ⟨_, app1, _, hp, _, _, hl, hget⟩ :=
    publish_copies_ring 2 [1, 2] [3, 4] startState startState_wellFormed rfl rfl rfl
  exact ⟨app1, hp, hl, hget 0 (by decide), hget 65535 (by decide)⟩

theorem held_lock_skips_copy_witness :
    ({ startState with lock_ui_ := true } : Application).WellFormed ∧
    ∃ ring, process 2 (some [1, 2]) (some [3, 4]) { startState with lock_ui_ := true }
        = some (0, ring) ∧
      ring.mem_ui_ = startState.mem_ui_ := by
  refine ⟨startState_wellFormed, ?_⟩
  obtain ⟨ring, _, hp, hu⟩ := held_lock_skips_copy 2 [1, 2] [3, 4]
    { startState with lock_ui_ := true } startState_wellFormed rfl rfl rfl
  exact ⟨ring, hp, hu⟩

theorem zero_frames_is_noop_witness :
    startState.WellFormed ∧
    process 0 none none startState
      = some (0, { startState with
          mem_ui_ := if startState.lock_ui_ then startState.mem_ui_
            else startState.mem_buf_ }) :=
  ⟨startState_wellFormed, zero_frames_is_noop none none startState startState_wellFormed⟩

/-- The end-to-end scenario of C7: three cycles of four frames with reference
all `0`, all `1`, all `-1` and effect all `0`, every publish succeeding, leave
`(-1, 0)` in snapshot slots 8 to 11. -/
theorem publish_shows_cycle_witness :
    ∃ s, runCycles startState
        [⟨4, [0, 0, 0, 0], [0, 0, 0, 0], false⟩, ⟨4, [1, 1, 1, 1], [0, 0, 0, 0], false⟩,
         ⟨4, [-1, -1, -1, -1], [0, 0, 0, 0], false⟩] = some s ∧
      s.mem_ui_[8]? = some ⟨-1, 0⟩ ∧ s.mem_ui_[9]? = some ⟨-1, 0⟩ ∧
      s.mem_ui_[10]? = some ⟨-1, 0⟩ ∧ s.mem_ui_[11]? = some ⟨-1, 0⟩ := by
  obtain ⟨s2, hs2, hwf2, hi2, _⟩ := runCycles_eq
    [⟨4, [0, 0, 0, 0], [0, 0, 0, 0], false⟩, ⟨4, [1, 1, 1, 1], [0, 0, 0, 0], false⟩]
    startState startState_wellFormed (by decide)
  have hidx : s2.mem_index = 8 := by
    rw [hi2, ringWrite_index_eq _ _ _ startState_wellFormed.1]
    rfl
  have hwf : ({ s2 with lock_ui_ := false } : Application).WellFormed := hwf2
  obtain ⟨s3, hp, hget⟩ := publish_shows_cycle 4 [-1, -1, -1, -1] [0, 0, 0, 0]
    { s2 with lock_ui_ := false } hwf rfl rfl (by decide) rfl
  refine ⟨s3, ?_, ?_, ?_, ?_, ?_⟩
  · have := runCycles_append
      [⟨4, [0, 0, 0, 0], [0, 0, 0, 0], false⟩, ⟨4, [1, 1, 1, 1], [0, 0, 0, 0], false⟩]
      [⟨4, [-1, -1, -1, -1], [0, 0, 0, 0], false⟩] startState
    simp only [List.cons_append, List.nil_append] at this
    rw [this, hs2]
    simp [runCycles, hp]
  · have := hget 0 (by decide)
    simpa [hidx, mem_size_eq] using this
  · have := hget 1 (by decide)
    simpa [hidx, mem_size_eq] using this
  · have := hget 2 (by decide)
    simpa [hidx, mem_size_eq] using this
  · have := hget 3 (by decide)
    simpa [hidx, mem_size_eq] using this

/-! ## Coordinate mapping and rendering -/

theorem xToCoord_eq (w : Int) (x : ℚ) : xToCoord w x = (x / 3 + 1 / 2) * ((w : ℚ) - 1) := by
  have h1 : (1.0 / 1.5 : ℚ) = 2 / 3 := by norm_num
  have h2 : (1.0 : ℚ) = 1 := by norm_num
  have h3 : (0.5 : ℚ) = 1 / 2 := by norm_num
  simp only [xToCoord, h1, h2, h3]
  push_cast
  ring

theorem yToCoord_eq (h : Int) (y : ℚ) : yToCoord h y = (1 / 2 - y / 3) * ((h : ℚ) - 1) := by
  have h1 : (1.0 / 1.5 : ℚ) = 2 / 3 := by norm_num
  have h2 : (1.0 : ℚ) = 1 := by norm_num
  have h3 : (0.5 : ℚ) = 1 / 2 := by norm_num
  simp only [yToCoord, h1, h2, h3]
  push_cast
  ring

theorem rat_floor_eq (q : ℚ) : Rat.floor q = ⌊q⌋ := rfl

theorem lround_bounds (q : ℚ) (n : Int) (h0 : 0 ≤ q) (hn : q ≤ n) :
    0 ≤ lround q ∧ lround q ≤ n := by
  simp only [lround, h0, if_true, rat_floor_eq]
  constructor
  · exact Int.floor_nonneg.mpr (by linarith)
  · have : ⌊q + 1 / 2⌋ < n + 1 := by
      rw [Int.floor_lt]
      push_cast
      linarith
    omega

theorem lround_intCast (n : Int) (hn : 0 ≤ n) : lround (n : ℚ) = n := by
  have h0 : (0 : ℚ) ≤ n := by exact_mod_cast hn
  simp only [lround, h0, if_true, rat_floor_eq]
  rw [Int.floor_int_add]
  have : ⌊(1 / 2 : ℚ)⌋ = 0 := by
    rw [Int.floor_eq_zero_iff]
    constructor <;> norm_num
  omega

theorem toInt32_of_fits (z : Int) (h0 : 0 ≤ z) (h1 : z < 2 ^ 31) : toInt32 z = z := by
  have h2 : z % 2 ^ 32 = z := Int.emod_eq_of_lt h0 (by omega)
  simp only [toInt32, h2, h1, if_true]

theorem paintEvent_points (w h : Int) (data : List QPointF)
    (hlen : data.length < 2 ^ 31) :
    (paintEvent w h { data_ := data }).filter PainterCall.isPoint
      = data.map (plotPoint w h) := by
  have hfit : toInt32 (data.length : Int) = data.length :=
    toInt32_of_fits _ (by omega) (by exact_mod_cast hlen)
  simp only [paintEvent, hfit]
  by_cases he : data = []
  · subst he
    simp
  · have hpos : ¬ ((data.length : Int) < 1) := by
      have := List.length_pos.mpr he
      omega
    simp only [hpos, if_false, Int.toNat_ofNat, List.take_length]
    simp [gridPositions, List.filter_cons, PainterCall.isPoint, List.filter_eq_self, plotPoint]

/-! ## Export -/

theorem decimalExponent_unit (fuel : Nat) (a : ℚ) (h1 : 1 ≤ a) (h10 : a < 10) :
    decimalExponent (fuel + 1) a = 0 := by
  rw [decimalExponent, if_neg (not_le.mpr h10), if_neg (not_lt.mpr h1)]

theorem decimalExponent_small (fuel : Nat) (a : ℚ) (h1 : a < 1) :
    decimalExponent (fuel + 1) a = decimalExponent fuel (a * 10) - 1 := by
  rw [decimalExponent, if_neg (by linarith), if_pos h1]

theorem smartNotation_half : smartNotation 0.5 = "0.5" := by
  have h1 : decimalExponent 400 |(0.5 : ℚ)| = -1 := by
    rw [abs_of_nonneg (by norm_num), decimalExponent_small 399 _ (by norm_num),
      decimalExponent_unit 398 _ (by norm_num) (by norm_num)]
    rfl
  have h2 : (Rat.floor (|(0.5 : ℚ)| * 10 ^ (5 - (-1 : Int)) + 1 / 2)).toNat = 500000 := by
    norm_num [Rat.floor_def', abs_of_nonneg]
    rfl
  have h3 : ¬ ((0.5 : ℚ) = 0) := by norm_num
  have h4 : ¬ ((0.5 : ℚ) < 0) := by norm_num
  simp only [smartNotation, h3, h4, if_false, h1, h2]
  decide

theorem smartNotation_neg_half : smartNotation (-0.5) = "-0.5" := by
  have h1 : decimalExponent 400 |(-0.5 : ℚ)| = -1 := by
    rw [abs_of_nonpos (by norm_num), decimalExponent_small 399 _ (by norm_num),
      decimalExponent_unit 398 _ (by norm_num) (by norm_num)]
    rfl
  have h2 : (Rat.floor (|(-0.5 : ℚ)| * 10 ^ (5 - (-1 : Int)) + 1 / 2)).toNat = 500000 := by
    norm_num [Rat.floor_def', abs_of_nonpos]
    rfl
  have h3 : ¬ ((-0.5 : ℚ) = 0) := by norm_num
  have h4 : (-0.5 : ℚ) < 0 := by norm_num
  simp only [smartNotation, h3, h4, if_false, if_true, h1, h2]
  decide

theorem smartNotation_one : smartNotation 1.0 = "1" := by
  have h1 : decimalExponent 400 |(1.0 : ℚ)| = 0 := by
    rw [abs_of_nonneg (by norm_num), decimalExponent_unit 399 _ (by norm_num) (by norm_num)]
  have h2 : (Rat.floor (|(1.0 : ℚ)| * 10 ^ (5 - (0 : Int)) + 1 / 2)).toNat = 100000 := by
    norm_num [Rat.floor_def', abs_of_nonneg]
    rfl
  have h3 : ¬ ((1.0 : ℚ) = 0) := by norm_num
  have h4 : ¬ ((1.0 : ℚ) < 0) := by norm_num
  simp only [smartNotation, h3, h4, if_false, h1, h2]
  decide

theorem foldl_append_from (ss : List String) (init : String) :
    ss.foldl (fun r s => r ++ s) init = init ++ ss.foldl (fun r s => r ++ s) "" := by
  induction ss generalizing init with
  | nil => simp
  | cons a ss ih =>
    rw [List.foldl_cons, ih, List.foldl_cons, ih ("" ++ a)]
    simp [String.append_assoc]

theorem join_cons (a : String) (ss : List String) :
    String.join (a :: ss) = a ++ String.join ss := by
  unfold String.join
  rw [List.foldl_cons, foldl_append_from]
  simp

theorem writeRecords_foldl (fmt : ℚ → String) (data : List QPointF) (stream : String) :
    data.foldl (fun stream p => stream ++ fmt p.x ++ " " ++ fmt p.y ++ "\n") stream
      = stream ++ String.join (data.map (fun p => fmt p.x ++ " " ++ fmt p.y ++ "\n")) := by
  induction data generalizing stream with
  | nil => simp [String.join]
  | cons p ps ih =>
    rw [List.foldl_cons, ih, List.map_cons, join_cons]
    simp [String.append_assoc]

theorem writeRecords_eq (fmt : ℚ → String) (data : List QPointF) :
    writeRecords fmt data
      = String.join (data.map (fun p => fmt p.x ++ " " ++ fmt p.y ++ "\n")) := by
  rw [writeRecords, writeRecords_foldl]
  simp

/-- C8, as the code has it: the save handler writes, with no header and no
trailer, one record per point of the view in buffer order, each record being
`x`, one space, `y`, one newline, the two numbers in the text stream's default
notation (printf's `%g` with six significant digits, not `%f`); for
`[(0.5, -0.5), (1.0, 1.0)]` the text written is `0.5 -0.5\n1 1\n`. -/
theorem export_writes_one_record_per_point :
    (∀ (filename : String) (view : SignalView),
      actionSave filename true view
        = if filename.isEmpty then none
          else some (String.join (view.data_.map
            (fun p => smartNotation p.x ++ " " ++ smartNotation p.y ++ "\n")))) ∧
    actionSave "points.txt" true { data_ := [⟨0.5, -0.5⟩, ⟨1.0, 1.0⟩] }
      = some "0.5 -0.5\n1 1\n" := by
  constructor
  · intro filename view
    simp only [actionSave, writeRecords_eq]
    split_ifs <;> simp_all
  · have hname : ("points.txt" : String).isEmpty = false := by decide
    simp only [actionSave, hname, writeRecords, List.foldl_cons, List.foldl_nil,
      smartNotation_half, smartNotation_neg_half, smartNotation_one]
    decide

/-- C8 fails as stated: for `[(0.5, -0.5), (1.0, 1.0)]` the handler does not
write the six-decimal text `0.500000 -0.500000\n1.000000 1.000000\n`. -/
theorem export_is_not_fixed_six_decimals :
    actionSave "points.txt" true { data_ := [⟨0.5, -0.5⟩, ⟨1.0, 1.0⟩] }
      ≠ some "0.500000 -0.500000\n1.000000 1.000000\n" := by
  have hname : ("points.txt" : String).isEmpty = false := by decide
  simp only [actionSave, hname, writeRecords, List.foldl_cons, List.foldl_nil,
    smartNotation_half, smartNotation_neg_half, smartNotation_one]
  decide

/-! ## The claims on rendering -/

/-- C5: for a surface of width `w ≥ 1` and height `h ≥ 1`, in exact
arithmetic, `xToCoord` is non-decreasing and `yToCoord` is non-increasing (on
the whole line, so in particular over `[-1.5, 1.5]`), and the origin maps to
the centre `((w - 1) / 2, (h - 1) / 2)`. -/
theorem coord_maps_monotone_and_centred (w h : Int) (hw : 1 ≤ w) (hh : 1 ≤ h) :
    (∀ x1 x2 : ℚ, x1 ≤ x2 → xToCoord w x1 ≤ xToCoord w x2) ∧
    (∀ y1 y2 : ℚ, y1 ≤ y2 → yToCoord h y2 ≤ yToCoord h y1) ∧
    xToCoord w 0 = ((w : ℚ) - 1) / 2 ∧ yToCoord h 0 = ((h : ℚ) - 1) / 2 := by
  have hw1 : (0 : ℚ) ≤ (w : ℚ) - 1 := by
    have : (1 : ℚ) ≤ (w : ℚ) := by exact_mod_cast hw
    linarith
  have hh1 : (0 : ℚ) ≤ (h : ℚ) - 1 := by
    have : (1 : ℚ) ≤ (h : ℚ) := by exact_mod_cast hh
    linarith
  refine ⟨?_, ?_, ?_, ?_⟩
  · intro x1 x2 hx
    rw [xToCoord_eq, xToCoord_eq]
    exact mul_le_mul_of_nonneg_right (by linarith) hw1
  · intro y1 y2 hy
    rw [yToCoord_eq, yToCoord_eq]
    exact mul_le_mul_of_nonneg_right (by linarith) hh1
  · rw [xToCoord_eq]; ring
  · rw [yToCoord_eq]; ring

theorem coord_maps_monotone_and_centred_witness :
    (1 : Int) ≤ 101 ∧ (1 : Int) ≤ 51 ∧
    xToCoord 101 (-1.5) ≤ xToCoord 101 1.5 ∧ yToCoord 51 1.5 ≤ yToCoord 51 (-1.5) ∧
    xToCoord 101 0 = ((101 : Int) - 1 : ℚ) / 2 ∧ yToCoord 51 0 = ((51 : Int) - 1 : ℚ) / 2 :=
  ⟨by decide, by decide,
    (coord_maps_monotone_and_centred 101 51 (by decide) (by decide)).1 _ _ (by norm_num),
    (coord_maps_monotone_and_centred 101 51 (by decide) (by decide)).2.1 _ _ (by norm_num),
    (coord_maps_monotone_and_centred 101 51 (by decide) (by decide)).2.2.1,
    (coord_maps_monotone_and_centred 101 51 (by decide) (by decide)).2.2.2⟩

/-- C4, as the code has it: on an empty data buffer `paintEvent` returns before
any painter call, so it draws nothing at all, neither a grid line nor a scatter
point. -/
theorem empty_buffer_draws_nothing (w h : Int) :
    paintEvent w h { data_ := [] } = [] := by
  simp [paintEvent, toInt32]

/-- C4 fails as stated: on an empty data buffer the ten grid lines are not
drawn. -/
theorem empty_buffer_has_no_grid :
    ((paintEvent 101 51 { data_ := [] }).filter PainterCall.isLine).length ≠ 10 := by
  simp [paintEvent, toInt32]

/-! ## Rounding to `double` -/

theorem roundHalfEven_le (q : ℚ) (n : Int) (h : q ≤ n) : roundHalfEven q ≤ n := by
  have hf : (⌊q⌋ : ℚ) ≤ q := Int.floor_le q
  have h1 : ⌊q⌋ ≤ n := by
    have : (⌊q⌋ : ℚ) ≤ n := le_trans hf h
    exact_mod_cast this
  have h2 : (1 : ℚ) / 2 ≤ q - ⌊q⌋ → ⌊q⌋ + 1 ≤ n := by
    intro hr
    have : (⌊q⌋ : ℚ) < n := by linarith
    have : ⌊q⌋ < n := by exact_mod_cast this
    omega
  simp only [roundHalfEven, rat_floor_eq]
  split_ifs with c1 c2 c3
  · exact h1
  · exact h2 (le_of_lt c2)
  · exact h1
  · exact h2 (not_lt.mp c1)

theorem le_roundHalfEven (q : ℚ) (n : Int) (h : (n : ℚ) ≤ q) : n ≤ roundHalfEven q := by
  have h1 : n ≤ ⌊q⌋ := Int.le_floor.mpr h
  simp only [roundHalfEven, rat_floor_eq]
  split_ifs <;> omega

theorem log_two_eq (q : ℚ) (e : Int) (h1 : (2 : ℚ) ^ e ≤ q) (h2 : q < (2 : ℚ) ^ (e + 1)) :
    Int.log 2 q = e := by
  have hpos : 0 < q := lt_of_lt_of_le (by positivity) h1
  have a : e ≤ Int.log 2 q :=
    (Int.zpow_le_iff_le_log (by norm_num) hpos).mp (by simpa using h1)
  have b : Int.log 2 q < e + 1 :=
    (Int.lt_zpow_iff_log_lt (by norm_num) hpos).mp (by simpa using h2)
  omega

theorem ulpExp_nonpos (q : ℚ) (hq : |q| < 2 ^ 53) : ulpExp q ≤ 0 := by
  unfold ulpExp
  by_cases h0 : q = 0
  · subst h0
    simp
  · have hpos : 0 < |q| := abs_pos.mpr h0
    have hq2 : |q| < ((2 : ℕ) : ℚ) ^ (53 : ℤ) := by
      have : ((2 : ℕ) : ℚ) ^ (53 : ℤ) = 2 ^ 53 := by norm_num
      rw [this]
      exact hq
    have : Int.log 2 |q| < 53 := (Int.lt_zpow_iff_log_lt (by norm_num) hpos).mp hq2
    omega

/-- An integer bound on an exact result below `2 ^ 53` in magnitude survives
the rounding to `double`. -/
theorem roundDouble_le_int (q : ℚ) (n : Int) (hq : |q| < 2 ^ 53) (h : q ≤ n) :
    roundDouble q ≤ n := by
  obtain ⟨k, hk⟩ : ∃ k : ℕ, ulpExp q = -(k : ℤ) :=
    ⟨(-ulpExp q).toNat, by have := ulpExp_nonpos q hq; omega⟩
  have hu : (2 : ℚ) ^ ulpExp q = ((2 : ℚ) ^ k)⁻¹ := by rw [hk, zpow_neg, zpow_natCast]
  have hpos : (0 : ℚ) < 2 ^ k := by positivity
  unfold roundDouble
  rw [hu, div_inv_eq_mul]
  have h1 : roundHalfEven (q * 2 ^ k) ≤ n * 2 ^ k :=
    roundHalfEven_le _ _ (by push_cast; exact mul_le_mul_of_nonneg_right h hpos.le)
  have h2 : ((roundHalfEven (q * 2 ^ k) : ℤ) : ℚ) ≤ ((n * 2 ^ k : ℤ) : ℚ) := by
    exact_mod_cast h1
  calc ((roundHalfEven (q * 2 ^ k) : ℤ) : ℚ) * ((2 : ℚ) ^ k)⁻¹
      ≤ ((n * 2 ^ k : ℤ) : ℚ) * ((2 : ℚ) ^ k)⁻¹ :=
        mul_le_mul_of_nonneg_right h2 (inv_nonneg.mpr hpos.le)
    _ = n := by push_cast; field_simp

theorem int_le_roundDouble (q : ℚ) (n : Int) (hq : |q| < 2 ^ 53) (h : (n : ℚ) ≤ q) :
    (n : ℚ) ≤ roundDouble q := by
  obtain ⟨k, hk⟩ : ∃ k : ℕ, ulpExp q = -(k : ℤ) :=
    ⟨(-ulpExp q).toNat, by have := ulpExp_nonpos q hq; omega⟩
  have hu : (2 : ℚ) ^ ulpExp q = ((2 : ℚ) ^ k)⁻¹ := by rw [hk, zpow_neg, zpow_natCast]
  have hpos : (0 : ℚ) < 2 ^ k := by positivity
  unfold roundDouble
  rw [hu, div_inv_eq_mul]
  have h1 : n * 2 ^ k ≤ roundHalfEven (q * 2 ^ k) :=
    le_roundHalfEven _ _ (by push_cast; exact mul_le_mul_of_nonneg_right h hpos.le)
  have h2 : ((n * 2 ^ k : ℤ) : ℚ) ≤ ((roundHalfEven (q * 2 ^ k) : ℤ) : ℚ) := by
    exact_mod_cast h1
  calc (n : ℚ) = ((n * 2 ^ k : ℤ) : ℚ) * ((2 : ℚ) ^ k)⁻¹ := by push_cast; field_simp
    _ ≤ ((roundHalfEven (q * 2 ^ k) : ℤ) : ℚ) * ((2 : ℚ) ^ k)⁻¹ :=
        mul_le_mul_of_nonneg_right h2 (inv_nonneg.mpr hpos.le)

/-- Rounding to `double` keeps an exact result inside integer bounds that are
themselves below `2 ^ 53` in magnitude. -/
theorem roundDouble_between (q : ℚ) (lo hi : Int) (hlo : (lo : ℚ) ≤ q) (hhi : q ≤ hi)
    (blo : -(2 ^ 53) < lo) (bhi : hi < 2 ^ 53) :
    (lo : ℚ) ≤ roundDouble q ∧ roundDouble q ≤ hi := by
  have hq : |q| < 2 ^ 53 := by
    have h1 : (-(2 ^ 53) : ℚ) < lo := by exact_mod_cast blo
    have h2 : (hi : ℚ) < 2 ^ 53 := by exact_mod_cast bhi
    exact abs_lt.mpr ⟨by linarith, by linarith⟩
  exact ⟨int_le_roundDouble q lo hq hlo, roundDouble_le_int q hi hq hhi⟩

/-- Integers below `2 ^ 53` in magnitude are `double` values. -/
theorem roundDouble_intCast (n : Int) (b1 : -(2 ^ 53) < n) (b2 : n < 2 ^ 53) :
    roundDouble (n : ℚ) = n := by
  obtain ⟨h1, h2⟩ := roundDouble_between (n : ℚ) n n le_rfl le_rfl b1 b2
  exact le_antisymm h2 h1

theorem ulpExp_eq (q : ℚ) (e : Int) (h1 : (2 : ℚ) ^ e ≤ |q|) (h2 : |q| < (2 : ℚ) ^ (e + 1))
    (he : -1022 ≤ e) : ulpExp q = e - 52 := by
  unfold ulpExp
  rw [log_two_eq _ e h1 h2]
  omega

/-- The `double` nearest to two thirds, the value of `1.0 / 1.5`. -/
theorem roundDouble_two_thirds :
    roundDouble (1.0 / 1.5) = 6004799503160661 / 9007199254740992 := by
  have hq : (1.0 / 1.5 : ℚ) = 2 / 3 := by norm_num
  have hu : ulpExp (2 / 3 : ℚ) = -53 := by
    rw [ulpExp_eq _ (-1) (by rw [abs_of_nonneg] <;> norm_num)
      (by rw [abs_of_nonneg] <;> norm_num) (by norm_num)]
    norm_num
  have hm : roundHalfEven ((2 / 3 : ℚ) / 2 ^ (-53 : ℤ)) = 6004799503160661 := by
    have hv : (2 / 3 : ℚ) / 2 ^ (-53 : ℤ) = 18014398509481984 / 3 := by norm_num
    have hf : Rat.floor (18014398509481984 / 3 : ℚ) = 6004799503160661 := by
      rw [rat_floor_eq, Int.floor_eq_iff]
      constructor <;> norm_num
    rw [hv, roundHalfEven, hf, if_pos (by norm_num)]
  rw [hq, roundDouble, hu, hm]
  norm_num

/-- One and a half times that `double` is half a unit in the last place short
of `1`, and the tie goes to the even neighbour `1`. -/
theorem roundDouble_top :
    roundDouble ((3 / 2 : ℚ) * (6004799503160661 / 9007199254740992)) = 1 := by
  have hv0 : (3 / 2 : ℚ) * (6004799503160661 / 9007199254740992)
      = 18014398509481983 / 18014398509481984 := by norm_num
  have hu : ulpExp (18014398509481983 / 18014398509481984 : ℚ) = -53 := by
    rw [ulpExp_eq _ (-1) (by rw [abs_of_nonneg] <;> norm_num)
      (by rw [abs_of_nonneg] <;> norm_num) (by norm_num)]
    norm_num
  have hm : roundHalfEven ((18014398509481983 / 18014398509481984 : ℚ) / 2 ^ (-53 : ℤ))
      = 9007199254740992 := by
    have hv : (18014398509481983 / 18014398509481984 : ℚ) / 2 ^ (-53 : ℤ)
        = 18014398509481983 / 2 := by norm_num
    have hf : Rat.floor (18014398509481983 / 2 : ℚ) = 9007199254740991 := by
      rw [rat_floor_eq, Int.floor_eq_iff]
      constructor <;> norm_num
    rw [hv, roundHalfEven, hf, if_neg (by norm_num), if_neg (by norm_num),
      if_neg (by decide)]
    norm_num
  rw [hv0, roundDouble, hu, hm]
  norm_num

theorem roundDouble_bottom :
    roundDouble ((-(3 / 2) : ℚ) * (6004799503160661 / 9007199254740992)) = -1 := by
  have hv0 : (-(3 / 2) : ℚ) * (6004799503160661 / 9007199254740992)
      = -(18014398509481983 / 18014398509481984) := by norm_num
  have hu : ulpExp (-(18014398509481983 / 18014398509481984) : ℚ) = -53 := by
    rw [ulpExp_eq _ (-1) (by rw [abs_neg, abs_of_nonneg] <;> norm_num)
      (by rw [abs_neg, abs_of_nonneg] <;> norm_num) (by norm_num)]
    norm_num
  have hm : roundHalfEven ((-(18014398509481983 / 18014398509481984) : ℚ) / 2 ^ (-53 : ℤ))
      = -9007199254740992 := by
    have hv : (-(18014398509481983 / 18014398509481984) : ℚ) / 2 ^ (-53 : ℤ)
        = -(18014398509481983 / 2) := by norm_num
    have hf : Rat.floor (-(18014398509481983 / 2) : ℚ) = -9007199254740992 := by
      rw [rat_floor_eq, Int.floor_eq_iff]
      constructor <;> norm_num
    rw [hv, roundHalfEven, hf, if_neg (by norm_num), if_neg (by norm_num),
      if_pos (by decide)]
  rw [hv0, roundDouble, hu, hm]
  norm_num

theorem roundDouble_zero : roundDouble 0 = 0 := by
  have := roundDouble_intCast 0 (by norm_num) (by norm_num)
  simpa using this

theorem roundDouble_one : roundDouble 1 = 1 := by
  have := roundDouble_intCast 1 (by norm_num) (by norm_num)
  simpa using this

theorem roundDouble_two : roundDouble 2 = 2 := by
  have := roundDouble_intCast 2 (by norm_num) (by norm_num)
  simpa using this

/-- The part of both lambdas before the scaling by the widget size,
`(v * (1.0 / 1.5) + 1.0) * 0.5` in `double`, stays in `[0, 1]` for `v` in
`[-1.5, 1.5]`. -/
theorem unit_coord_bounds (v : ℚ) (h1 : -(3 / 2) ≤ v) (h2 : v ≤ 3 / 2) :
    0 ≤ roundDouble (roundDouble (roundDouble (v * roundDouble (1.0 / 1.5)) + 1.0) * 0.5) ∧
    roundDouble (roundDouble (roundDouble (v * roundDouble (1.0 / 1.5)) + 1.0) * 0.5) ≤ 1 := by
  rw [roundDouble_two_thirds]
  have e1 : (1.0 : ℚ) = 1 := by norm_num
  have e2 : (0.5 : ℚ) = 1 / 2 := by norm_num
  rw [e1, e2]
  obtain ⟨a1, a2⟩ := roundDouble_between (v * (6004799503160661 / 9007199254740992)) (-1) 1
    (by push_cast; linarith) (by push_cast; linarith) (by norm_num) (by norm_num)
  push_cast at a1 a2
  obtain ⟨b1, b2⟩ := roundDouble_between
    (roundDouble (v * (6004799503160661 / 9007199254740992)) + 1) 0 2
    (by push_cast; linarith) (by push_cast; linarith) (by norm_num) (by norm_num)
  push_cast at b1 b2
  obtain ⟨c1, c2⟩ := roundDouble_between
    (roundDouble (roundDouble (v * (6004799503160661 / 9007199254740992)) + 1) * (1 / 2)) 0 1
    (by push_cast; linarith) (by push_cast; linarith) (by norm_num) (by norm_num)
  push_cast at c1 c2
  exact ⟨c1, c2⟩

theorem unit_coord_top :
    roundDouble (roundDouble (roundDouble ((1.5 : ℚ) * roundDouble (1.0 / 1.5)) + 1.0) * 0.5)
      = 1 := by
  have e0 : (1.5 : ℚ) = 3 / 2 := by norm_num
  have e1 : (1.0 : ℚ) = 1 := by norm_num
  have e2 : (0.5 : ℚ) = 1 / 2 := by norm_num
  have e3 : (1 + 1 : ℚ) = 2 := by norm_num
  have e4 : (2 * (1 / 2) : ℚ) = 1 := by norm_num
  rw [roundDouble_two_thirds, e0, e1, e2, roundDouble_top, e3, roundDouble_two, e4,
    roundDouble_one]

theorem unit_coord_bottom :
    roundDouble (roundDouble (roundDouble ((-1.5 : ℚ) * roundDouble (1.0 / 1.5)) + 1.0) * 0.5)
      = 0 := by
  have e0 : (-1.5 : ℚ) = -(3 / 2) := by norm_num
  have e1 : (1.0 : ℚ) = 1 := by norm_num
  have e2 : (0.5 : ℚ) = 1 / 2 := by norm_num
  have e3 : (-1 + 1 : ℚ) = 0 := by norm_num
  have e4 : (0 * (1 / 2) : ℚ) = 0 := by norm_num
  rw [roundDouble_two_thirds, e0, e1, e2, roundDouble_bottom, e3, roundDouble_zero, e4,
    roundDouble_zero]

theorem xToCoordDouble_bounds (w : Int) (x : ℚ) (hw : 1 ≤ w) (hwi : w < 2 ^ 31)
    (h1 : -(3 / 2) ≤ x) (h2 : x ≤ 3 / 2) :
    0 ≤ xToCoordDouble w x ∧ xToCoordDouble w x ≤ ((w - 1 : Int) : ℚ) := by
  obtain ⟨d0, d1⟩ := unit_coord_bounds x h1 h2
  have hw1 : (0 : ℚ) ≤ ((w - 1 : Int) : ℚ) := by exact_mod_cast (by omega : (0 : Int) ≤ w - 1)
  obtain ⟨r0, r1⟩ := roundDouble_between
    (roundDouble (roundDouble (roundDouble (x * roundDouble (1.0 / 1.5)) + 1.0) * 0.5)
      * ((w - 1 : Int) : ℚ)) 0 (w - 1)
    (by push_cast; exact mul_nonneg d0 (by exact_mod_cast hw1))
    (by nlinarith) (by norm_num) (by omega)
  rw [Int.cast_zero] at r0
  exact ⟨r0, r1⟩

theorem yToCoordDouble_bounds (h : Int) (y : ℚ) (hh : 1 ≤ h) (hhi : h < 2 ^ 31)
    (h1 : -(3 / 2) ≤ y) (h2 : y ≤ 3 / 2) :
    0 ≤ yToCoordDouble h y ∧ yToCoordDouble h y ≤ ((h - 1 : Int) : ℚ) := by
  obtain ⟨d0, d1⟩ := unit_coord_bounds y h1 h2
  have e1 : (1.0 : ℚ) = 1 := by norm_num
  have hh1 : (0 : ℚ) ≤ ((h - 1 : Int) : ℚ) := by exact_mod_cast (by omega : (0 : Int) ≤ h - 1)
  obtain ⟨s0, s1⟩ := roundDouble_between
    (1.0 - roundDouble (roundDouble (roundDouble (y * roundDouble (1.0 / 1.5)) + 1.0) * 0.5))
    0 1 (by push_cast; linarith) (by push_cast; linarith) (by norm_num) (by norm_num)
  push_cast at s0 s1
  obtain ⟨r0, r1⟩ := roundDouble_between
    (roundDouble (1.0 -
        roundDouble (roundDouble (roundDouble (y * roundDouble (1.0 / 1.5)) + 1.0) * 0.5))
      * ((h - 1 : Int) : ℚ)) 0 (h - 1)
    (by push_cast; exact mul_nonneg s0 (by exact_mod_cast hh1))
    (by nlinarith) (by norm_num) (by omega)
  rw [Int.cast_zero] at r0
  exact ⟨r0, r1⟩

theorem roundHalfEven_of_low (q : ℚ) (f : Int) (h1 : (f : ℚ) ≤ q) (h2 : q < f + 1 / 2) :
    roundHalfEven q = f := by
  have hf : Rat.floor q = f := by
    rw [rat_floor_eq, Int.floor_eq_iff]
    exact ⟨h1, by linarith⟩
  rw [roundHalfEven, hf, if_pos (by linarith)]

theorem roundHalfEven_of_tie_even (f : Int) (hf : f % 2 = 0) :
    roundHalfEven ((f : ℚ) + 1 / 2) = f := by
  have hfl : Rat.floor ((f : ℚ) + 1 / 2) = f := by
    rw [rat_floor_eq, Int.floor_eq_iff]
    constructor <;> linarith
  rw [roundHalfEven, hfl, if_neg (by norm_num), if_neg (by norm_num), if_pos hf]

theorem roundDouble_of_binade (q : ℚ) (e m : Int) (he : -1022 ≤ e) (h1 : (2 : ℚ) ^ e ≤ |q|)
    (h2 : |q| < (2 : ℚ) ^ (e + 1)) (hm : roundHalfEven (q / 2 ^ (e - 52)) = m) :
    roundDouble q = m * 2 ^ (e - 52) := by
  rw [roundDouble, ulpExp_eq q e h1 h2 he, hm]

/-- Where rounding matters: on a 400 pixel wide surface the exact value of the
expression at `x = 1` is the half-way point `332.5`, while the `double` the
code computes lies just below it. -/
theorem xToCoordDouble_400_one :
    xToCoordDouble 400 1 = 5849401859768319 / 17592186044416 := by
  have e1 : (1.0 : ℚ) = 1 := by norm_num
  have e2 : (0.5 : ℚ) = 1 / 2 := by norm_num
  have t1 : roundDouble ((1 : ℚ) * (6004799503160661 / 9007199254740992))
      = 6004799503160661 / 9007199254740992 := by
    rw [roundDouble_of_binade _ (-1) 6004799503160661 (by norm_num)
      (by rw [abs_of_nonneg] <;> norm_num) (by rw [abs_of_nonneg] <;> norm_num)
      (roundHalfEven_of_low _ _ (by norm_num) (by norm_num))]
    norm_num
  have t2 : roundDouble ((6004799503160661 / 9007199254740992 : ℚ) + 1)
      = 3752999689475413 / 2251799813685248 := by
    have hq : ((6004799503160661 / 9007199254740992 : ℚ) + 1) / 2 ^ ((0 : ℤ) - 52)
        = ((7505999378950826 : ℤ) : ℚ) + 1 / 2 := by norm_num
    rw [roundDouble_of_binade _ 0 7505999378950826 (by norm_num)
      (by rw [abs_of_nonneg] <;> norm_num) (by rw [abs_of_nonneg] <;> norm_num)
      (by rw [hq]; exact roundHalfEven_of_tie_even _ (by decide))]
    norm_num
  have t3 : roundDouble ((3752999689475413 / 2251799813685248 : ℚ) * (1 / 2))
      = 3752999689475413 / 4503599627370496 := by
    rw [roundDouble_of_binade _ (-1) 7505999378950826 (by norm_num)
      (by rw [abs_of_nonneg] <;> norm_num) (by rw [abs_of_nonneg] <;> norm_num)
      (roundHalfEven_of_low _ _ (by norm_num) (by norm_num))]
    norm_num
  have t4 : roundDouble ((3752999689475413 / 4503599627370496 : ℚ) * ((400 - 1 : Int) : ℚ))
      = 5849401859768319 / 17592186044416 := by
    rw [roundDouble_of_binade _ 8 5849401859768319 (by norm_num)
      (by rw [abs_of_nonneg] <;> norm_num) (by rw [abs_of_nonneg] <;> norm_num)
      (roundHalfEven_of_low _ _ (by norm_num) (by norm_num))]
    norm_num
  rw [xToCoordDouble, roundDouble_two_thirds, e1, e2, t1, t2, t3, t4]

theorem yToCoordDouble_400_neg_one :
    yToCoordDouble 400 (-1) = 5849401859768319 / 17592186044416 := by
  have e1 : (1.0 : ℚ) = 1 := by norm_num
  have e2 : (0.5 : ℚ) = 1 / 2 := by norm_num
  have u1 : roundDouble ((-1 : ℚ) * (6004799503160661 / 9007199254740992))
      = -(6004799503160661 / 9007199254740992) := by
    rw [roundDouble_of_binade _ (-1) (-6004799503160661) (by norm_num)
      (by rw [abs_of_nonpos] <;> norm_num) (by rw [abs_of_nonpos] <;> norm_num)
      (roundHalfEven_of_low _ _ (by norm_num) (by norm_num))]
    norm_num
  have u2 : roundDouble (-(6004799503160661 / 9007199254740992 : ℚ) + 1)
      = 3002399751580331 / 9007199254740992 := by
    rw [roundDouble_of_binade _ (-2) 6004799503160662 (by norm_num)
      (by rw [abs_of_nonneg] <;> norm_num) (by rw [abs_of_nonneg] <;> norm_num)
      (roundHalfEven_of_low _ _ (by norm_num) (by norm_num))]
    norm_num
  have u3 : roundDouble ((3002399751580331 / 9007199254740992 : ℚ) * (1 / 2))
      = 3002399751580331 / 18014398509481984 := by
    rw [roundDouble_of_binade _ (-3) 6004799503160662 (by norm_num)
      (by rw [abs_of_nonneg] <;> norm_num) (by rw [abs_of_nonneg] <;> norm_num)
      (roundHalfEven_of_low _ _ (by norm_num) (by norm_num))]
    norm_num
  have u4 : roundDouble ((1 : ℚ) - 3002399751580331 / 18014398509481984)
      = 3752999689475413 / 4503599627370496 := by
    have hq : ((1 : ℚ) - 3002399751580331 / 18014398509481984) / 2 ^ ((-1 : ℤ) - 52)
        = ((7505999378950826 : ℤ) : ℚ) + 1 / 2 := by norm_num
    rw [roundDouble_of_binade _ (-1) 7505999378950826 (by norm_num)
      (by rw [abs_of_nonneg] <;> norm_num) (by rw [abs_of_nonneg] <;> norm_num)
      (by rw [hq]; exact roundHalfEven_of_tie_even _ (by decide))]
    norm_num
  have u5 : roundDouble ((3752999689475413 / 4503599627370496 : ℚ) * ((400 - 1 : Int) : ℚ))
      = 5849401859768319 / 17592186044416 := by
    rw [roundDouble_of_binade _ 8 5849401859768319 (by norm_num)
      (by rw [abs_of_nonneg] <;> norm_num) (by rw [abs_of_nonneg] <;> norm_num)
      (roundHalfEven_of_low _ _ (by norm_num) (by norm_num))]
    norm_num
  rw [yToCoordDouble, roundDouble_two_thirds, e1, e2, u1, u2, u3, u4, u5]

/-- The pixel drawn for the pair `(1, -1)` on a 400 by 400 surface is
`(332, 332)`: both `double` coordinates fall just short of the half-way point
`332.5` that exact arithmetic would give. -/
theorem plotPoint_400_one_neg_one :
    plotPoint 400 400 ⟨1, -1⟩ = PainterCall.drawPoint 332 332 := by
  have hl : lround (5849401859768319 / 17592186044416 : ℚ) = 332 := by
    have hf : Rat.floor ((5849401859768319 / 17592186044416 : ℚ) + 1 / 2) = 332 := by
      rw [rat_floor_eq, Int.floor_eq_iff]
      constructor <;> norm_num
    rw [lround, if_pos (by norm_num), hf]
  rw [plotPoint, xToCoordDouble_400_one, yToCoordDouble_400_neg_one, hl,
    toInt32_of_fits 332 (by norm_num) (by norm_num)]

/-- C10: on an `int` surface of width `w ≥ 1` and height `h ≥ 1`, with the
coordinates computed in `double` as the code does, every pair with both
coordinates in `[-1.5, 1.5]` is plotted at the pixel
`(lround (xToCoord x), lround (yToCoord y))`, which lies on the surface;
`x = -1.5` goes to column `0`, `x = 1.5` to column `w - 1`, `y = 1.5` to row `0`
and `y = -1.5` to row `h - 1`; and `paintEvent` plots exactly one point per
element, in buffer order, of every data buffer whose size fits the `int` that
holds it, in particular of the snapshot the timer handler hands to `setData`. -/
theorem plot_stays_on_surface (w h : Int) (hw : 1 ≤ w) (hh : 1 ≤ h)
    (hwi : w < 2 ^ 31) (hhi : h < 2 ^ 31) :
    (∀ p : QPointF, -1.5 ≤ p.x → p.x ≤ 1.5 → -1.5 ≤ p.y → p.y ≤ 1.5 →
      plotPoint w h p
          = PainterCall.drawPoint (lround (xToCoordDouble w p.x))
              (lround (yToCoordDouble h p.y)) ∧
        0 ≤ lround (xToCoordDouble w p.x) ∧ lround (xToCoordDouble w p.x) ≤ w - 1 ∧
        0 ≤ lround (yToCoordDouble h p.y) ∧ lround (yToCoordDouble h p.y) ≤ h - 1) ∧
    lround (xToCoordDouble w (-1.5)) = 0 ∧ lround (xToCoordDouble w 1.5) = w - 1 ∧
    lround (yToCoordDouble h 1.5) = 0 ∧ lround (yToCoordDouble h (-1.5)) = h - 1 ∧
    (∀ data : List QPointF, data.length < 2 ^ 31 →
      (paintEvent w h { data_ := data }).filter PainterCall.isPoint
        = data.map (plotPoint w h)) ∧
    ∀ (app : Application) (view : SignalView), app.WellFormed →
      (paintEvent w h (setData view app.mem_ui_)).filter PainterCall.isPoint
        = app.mem_ui_.map (plotPoint w h) := by
  have e1 : (1.5 : ℚ) = 3 / 2 := by norm_num
  have e2 : (1.0 : ℚ) = 1 := by norm_num
  have bw1 : -(2 ^ 53) < w - 1 := by omega
  have bw2 : w - 1 < 2 ^ 53 := by omega
  have bh1 : -(2 ^ 53) < h - 1 := by omega
  have bh2 : h - 1 < 2 ^ 53 := by omega
  refine ⟨?_, ?_, ?_, ?_, ?_, fun data hlen => paintEvent_points w h data hlen,
    fun app view hwf => paintEvent_points w h app.mem_ui_ (by rw [hwf.2.2]; decide)⟩
  · intro p hx0 hx1 hy0 hy1
    rw [e1] at hx0 hx1 hy0 hy1
    obtain ⟨x0, x1⟩ := xToCoordDouble_bounds w p.x hw hwi hx0 hx1
    obtain ⟨y0, y1⟩ := yToCoordDouble_bounds h p.y hh hhi hy0 hy1
    obtain ⟨bx0, bx1⟩ := lround_bounds _ _ x0 x1
    obtain ⟨by0, by1⟩ := lround_bounds _ _ y0 y1
    refine ⟨?_, bx0, bx1, by0, by1⟩
    rw [plotPoint, toInt32_of_fits _ bx0 (by omega), toInt32_of_fits _ by0 (by omega)]
  · rw [xToCoordDouble, unit_coord_bottom, zero_mul, roundDouble_zero]
    exact lround_intCast 0 (le_refl 0)
  · rw [xToCoordDouble, unit_coord_top, one_mul, roundDouble_intCast _ bw1 bw2]
    exact lround_intCast _ (by omega)
  · rw [yToCoordDouble, unit_coord_top, e2, sub_self, roundDouble_zero, zero_mul,
      roundDouble_zero]
    exact lround_intCast 0 (le_refl 0)
  · rw [yToCoordDouble, unit_coord_bottom, e2, sub_zero, roundDouble_one, one_mul,
      roundDouble_intCast _ bh1 bh2]
    exact lround_intCast _ (by omega)

theorem plot_stays_on_surface_witness :
    (1 : Int) ≤ 101 ∧ (1 : Int) ≤ 51 ∧ (101 : Int) < 2 ^ 31 ∧ (51 : Int) < 2 ^ 31 ∧
    plotPoint 101 51 ⟨-1.5, 1.5⟩ = PainterCall.drawPoint 0 0 ∧
    plotPoint 101 51 ⟨1.5, -1.5⟩ = PainterCall.drawPoint (101 - 1) (51 - 1) ∧
    (paintEvent 101 51 { data_ := [⟨-1.5, 1.5⟩, ⟨1.5, -1.5⟩] }).filter PainterCall.isPoint
      = [plotPoint 101 51 ⟨-1.5, 1.5⟩, plotPoint 101 51 ⟨1.5, -1.5⟩] := by
  have key := plot_stays_on_surface 101 51 (by decide) (by decide) (by decide) (by decide)
  obtain ⟨hp, hx0, hx1, hy0, hy1, hdata, _⟩ := key
  refine ⟨by decide, by decide, by decide, by decide, ?_, ?_, ?_⟩
  · rw [(hp ⟨-1.5, 1.5⟩ (by norm_num) (by norm_num) (by norm_num) (by norm_num)).1, hx0, hy0]
  · rw [(hp ⟨1.5, -1.5⟩ (by norm_num) (by norm_num) (by norm_num) (by norm_num)).1, hx1, hy1]
  · exact hdata _ (by simp)

end DistoAnalyzer
